import Mathlib

/-!
# Verification of the irc_api connection/dispatch engine

A shallow embedding of `src/irc_api/irc.py` and `src/irc_api/api.py`.
Python strings are embedded as `List Char`; Python integers as `Int`
(or `Nat` where the source value is a length); fallible operations
return `Option` or a dedicated outcome type.  Each definition mirrors
one function, method or statement of the source, named after it where
Lean allows.
-/

namespace IrcApi

/-- Python strings are embedded as lists of characters. -/
abbrev Chars := List Char

/-- The characters of a Lean string literal, used to write concrete
Python string values. -/
def chars (s : String) : Chars := s.data

/-- The single-quote character (ASCII 39), written numerically. -/
def squote : Char := Char.ofNat 39

/-- Python `str.isspace` / the `\s` class over the ASCII range:
space, tab, newline, carriage return, vertical tab, form feed. -/
def pyIsSpace (c : Char) : Bool :=
  c = ' ' || c = '\t' || c = '\n' || c = '\r' || c = Char.ofNat 11 || c = Char.ofNat 12

/-- Python `str.strip()`: remove leading and trailing whitespace. -/
def pyStrip (s : Chars) : Chars :=
  ((s.dropWhile pyIsSpace).reverse.dropWhile pyIsSpace).reverse

/- ### Generic list lemmas used throughout -/

theorem mem_takeWhile_pred {α : Type} (p : α → Bool) :
    ∀ (l : List α) (x : α), x ∈ l.takeWhile p → p x = true := by
  intro l
  induction l with
  | nil => intro x hx; simp [List.takeWhile] at hx
  | cons a t ih =>
      intro x hx
      by_cases ha : p a = true
      · rw [List.takeWhile_cons_of_pos ha] at hx
        rcases List.mem_cons.mp hx with h | h
        · rwa [h]
        · exact ih x h
      · rw [List.takeWhile_cons_of_neg ha] at hx
        simp at hx

theorem dropWhile_head_pred {α : Type} (p : α → Bool) :
    ∀ (l : List α) (c : α) (t : List α), l.dropWhile p = c :: t → p c = false := by
  intro l
  induction l with
  | nil => intro c t h; simp [List.dropWhile] at h
  | cons a l' ih =>
      intro c t h
      by_cases ha : p a = true
      · rw [List.dropWhile_cons_of_pos ha] at h
        exact ih c t h
      · rw [List.dropWhile_cons_of_neg ha] at h
        cases h
        simpa using ha

/-- `takeWhile` over a decomposed list: if every element of `l`
satisfies `p` and `r` is empty or starts with a failing element,
`takeWhile` returns exactly `l`. -/
theorem takeWhile_append_of {α : Type} (p : α → Bool) :
    ∀ (l r : List α), (∀ x ∈ l, p x = true) →
      (∀ c t, r = c :: t → p c = false) →
      (l ++ r).takeWhile p = l := by
  intro l
  induction l with
  | nil =>
      intro r _ hr
      cases r with
      | nil => simp
      | cons c t =>
          have hc : ¬ p c = true := by simp [hr c t rfl]
          simp [List.takeWhile_cons_of_neg hc]
  | cons a l' ih =>
      intro r hl hr
      have ha : p a = true := hl a (List.mem_cons_self a l')
      have := ih r (fun x hx => hl x (List.mem_cons_of_mem a hx)) hr
      simp [List.takeWhile_cons_of_pos ha, this]

/-- `dropWhile` counterpart of `takeWhile_append_of`. -/
theorem dropWhile_append_of {α : Type} (p : α → Bool) :
    ∀ (l r : List α), (∀ x ∈ l, p x = true) →
      (∀ c t, r = c :: t → p c = false) →
      (l ++ r).dropWhile p = r := by
  intro l
  induction l with
  | nil =>
      intro r _ hr
      cases r with
      | nil => simp
      | cons c t =>
          have hc : ¬ p c = true := by simp [hr c t rfl]
          simp [List.dropWhile_cons_of_neg hc]
  | cons a l' ih =>
      intro r hl hr
      have ha : p a = true := hl a (List.mem_cons_self a l')
      have := ih r (fun x hx => hl x (List.mem_cons_of_mem a hx)) hr
      simp [List.dropWhile_cons_of_pos ha, this]

/-- `dropWhile` leaves a list alone when it is empty or starts with a
failing element. -/
theorem dropWhile_eq_self_of {α : Type} (p : α → Bool) (l : List α)
    (h : ∀ c t, l = c :: t → p c = false) : l.dropWhile p = l := by
  cases l with
  | nil => simp
  | cons c t =>
      have hc : ¬ p c = true := by simp [h c t rfl]
      simp [List.dropWhile_cons_of_neg hc]

/-- Cancellation of a common prefix on both sides of `<+:`. -/
theorem prefix_cancel_left {α : Type} (l a b : List α) :
    l ++ a <+: l ++ b ↔ a <+: b := by
  constructor
  · rintro ⟨t, ht⟩
    refine ⟨t, ?_⟩
    rw [List.append_assoc] at ht
    exact List.append_cancel_left ht
  · rintro ⟨t, ht⟩
    exact ⟨t, by rw [List.append_assoc, ht]⟩

/- ### History (`irc.py`, class History) -/

/-- `irc.py` `History`: `__content` list plus `__limit` bound. -/
structure History (α : Type) where
  content : List α
  limit : Int

/-- `History.__init__`: empty content; `if limit:` keeps a nonzero
limit and falls back to `100` otherwise. -/
def History.init (α : Type) (limit : Int) : History α :=
  ⟨[], if limit ≠ 0 then limit else 100⟩

/-- `History.add`: `if len(content) == limit: content.pop(0)` then
`content.append(elmnt)`. -/
def History.add {α : Type} (h : History α) (e : α) : History α :=
  if (h.content.length : Int) = h.limit then
    ⟨h.content.tail ++ [e], h.limit⟩
  else
    ⟨h.content ++ [e], h.limit⟩

/-- Repeated insertion, in order. -/
def History.addAll {α : Type} (h : History α) (l : List α) : History α :=
  l.foldl History.add h

theorem History.add_content_of_lt {α : Type} (h : History α) (e : α)
    (hlt : (h.content.length : Int) ≠ h.limit) :
    (h.add e).content = h.content ++ [e] := by
  simp [History.add, hlt]

theorem History.add_content_of_full {α : Type} (h : History α) (e : α)
    (hfull : (h.content.length : Int) = h.limit) :
    (h.add e).content = h.content.tail ++ [e] := by
  simp [History.add, hfull]

theorem History.add_limit {α : Type} (h : History α) (e : α) :
    (h.add e).limit = h.limit := by
  by_cases hfull : (h.content.length : Int) = h.limit <;> simp [History.add, hfull]

/-- Folding invariant: the content is always the suffix of everything
inserted so far, of length capped at `N`. -/
theorem History.addAll_content {α : Type} (N : Nat) (hN : 0 < N) :
    ∀ (msgs : List α) (h : History α), h.limit = (N : Int) →
      h.content.length ≤ N →
      (h.addAll msgs).content =
        (h.content ++ msgs).drop (h.content.length + msgs.length - N) := by
  intro msgs
  induction msgs with
  | nil =>
      intro h _ hle
      have h0 : h.content.length - N = 0 := by omega
      simp [History.addAll, h0]
  | cons x rest ih =>
      intro h hlim hle
      have step : (h.addAll (x :: rest)) = ((h.add x).addAll rest) := by
        simp [History.addAll]
      rw [step]
      by_cases hfull : (h.content.length : Int) = h.limit
      · -- the history is at capacity: the oldest element is evicted
        have hlen : h.content.length = N := by
          rw [hlim] at hfull; exact_mod_cast hfull
        have hne : h.content ≠ [] := by
          intro hnil; rw [hnil] at hlen; simp at hlen; omega
        obtain ⟨hd, tl, hht⟩ := List.exists_cons_of_ne_nil hne
        have hc' : (h.add x).content = h.content.tail ++ [x] :=
          History.add_content_of_full h x hfull
        have hlen' : (h.add x).content.length = N := by
          rw [hc', hht]; simp [List.length_append]
          rw [hht] at hlen; simp at hlen; omega
        have := ih (h.add x) (by rw [History.add_limit, hlim]) (le_of_eq hlen')
        rw [this, hlen', hc', hht]
        simp only [List.tail_cons]
        have harith : N + rest.length - N = rest.length := by omega
        have harith2 : (hd :: tl).length + (x :: rest).length - N = rest.length + 1 := by
          rw [hht] at hlen; simp at hlen ⊢; omega
        rw [harith, harith2]
        simp [List.append_assoc]
      · -- below capacity: plain append
        have hlt : h.content.length < N := by
          rcases lt_or_eq_of_le hle with h' | h'
          · exact h'
          · exfalso; apply hfull; rw [hlim]; exact_mod_cast h'
        have hc' : (h.add x).content = h.content ++ [x] :=
          History.add_content_of_lt h x hfull
        have hlen' : (h.add x).content.length = h.content.length + 1 := by
          rw [hc']; simp
        have := ih (h.add x) (by rw [History.add_limit, hlim]) (by omega)
        rw [this, hc']
        have harith : (h.content ++ [x]).length + rest.length - N
            = h.content.length + (x :: rest).length - N := by
          simp; omega
        rw [harith]
        simp [List.append_assoc]

/-- C5 main statement pieces, general form. -/
theorem History.length_le {α : Type} (N : Nat) (hN : 0 < N) :
    ∀ (msgs : List α) (h : History α), h.limit = (N : Int) →
      h.content.length ≤ N → (h.addAll msgs).content.length ≤ N := by
  intro msgs
  induction msgs with
  | nil => intro h _ hle; simpa [History.addAll] using hle
  | cons x rest ih =>
      intro h hlim hle
      have step : (h.addAll (x :: rest)) = ((h.add x).addAll rest) := by
        simp [History.addAll]
      rw [step]
      apply ih (h.add x) (by rw [History.add_limit, hlim])
      by_cases hfull : (h.content.length : Int) = h.limit
      · have hlen : h.content.length = N := by
          rw [hlim] at hfull; exact_mod_cast hfull
        rw [History.add_content_of_full h x hfull]
        have : h.content ≠ [] := by
          intro hnil; rw [hnil] at hlen; simp at hlen; omega
        obtain ⟨hd, tl, hht⟩ := List.exists_cons_of_ne_nil this
        rw [hht]; simp
        rw [hht] at hlen; simp at hlen; omega
      · have hlt : h.content.length < N := by
          rcases lt_or_eq_of_le hle with h' | h'
          · exact h'
          · exfalso; apply hfull; rw [hlim]; exact_mod_cast h'
        rw [History.add_content_of_lt h x hfull]; simp; omega

/-- C5: for a History of capacity `N > 0`, after inserting `N + k`
elements the stored sequence is exactly the last `N` inserted, in
insertion order; the length never exceeds `N`; and insertion at
capacity evicts the oldest element first. -/
theorem history_fifo :
    (∀ (α : Type) (N k : Nat) (msgs : List α), 0 < N → msgs.length = N + k →
        ((History.init α (N : Int)).addAll msgs).content = msgs.drop k)
    ∧ (∀ (α : Type) (N : Nat) (msgs : List α), 0 < N →
        ((History.init α (N : Int)).addAll msgs).content.length ≤ N)
    ∧ (∀ (α : Type) (h : History α) (e : α),
        (h.content.length : Int) = h.limit →
        (h.add e).content = h.content.tail ++ [e]) := by
  refine ⟨?_, ?_, ?_⟩
  · intro α N k msgs hN hlen
    have hNz : (N : Int) ≠ 0 := by omega
    have hinit : (History.init α (N : Int)).limit = (N : Int) := by
      simp [History.init, hNz]
    have hcontent : (History.init α (N : Int)).content = [] := rfl
    have := History.addAll_content N hN msgs (History.init α (N : Int)) hinit
      (by rw [hcontent]; simp)
    rw [this, hcontent]
    simp only [List.nil_append, List.length_nil, Nat.zero_add]
    rw [hlen]
    congr 1
    omega
  · intro α N msgs hN
    have hNz : (N : Int) ≠ 0 := by omega
    have hinit : (History.init α (N : Int)).limit = (N : Int) := by
      simp [History.init, hNz]
    exact History.length_le N hN msgs _ hinit (by simp [History.init])
  · intro α h e hfull
    exact History.add_content_of_full h e hfull

/-- C5 witness: capacity 2, three insertions keep the last two. -/
theorem history_fifo_witness :
    ((History.init Nat ((2 : Nat) : Int)).addAll [10, 20, 30]).content
      = ([10, 20, 30] : List Nat).drop 1 :=
  history_fifo.1 Nat 2 1 [10, 20, 30] (by decide) (by decide)

/- ### Argument coercion (`api.py`, `convert` and `check_args`) -/

/-- The coercion target types declared by handlers that the claims
exercise (`int` and `str`). -/
inductive PyType where
  | int
  | str
deriving DecidableEq

/-- A coerced argument value.  `wrong` embeds the `WrongArg` sentinel
class: "the transtyping has failed and the argument has no default
value". -/
inductive Value where
  | vint (n : Int)
  | vstr (s : Chars)
  | wrong
deriving DecidableEq

/-- Decimal value of a digit string. -/
def digitsVal (l : Chars) : Nat :=
  l.foldl (fun a c => 10 * a + (c.toNat - Char.toNat (Char.ofNat 48))) 0

/-- Python `int(str)`: optional surrounding whitespace, optional sign,
then one or more decimal digits; anything else raises `ValueError`
(modelled as `none`). -/
def pyInt? (s : Chars) : Option Int :=
  let t := pyStrip s
  match t with
  | '-' :: ds =>
      if ds ≠ [] ∧ ds.all Char.isDigit then some (-(digitsVal ds : Int)) else none
  | '+' :: ds =>
      if ds ≠ [] ∧ ds.all Char.isDigit then some ((digitsVal ds : Int)) else none
  | ds =>
      if ds ≠ [] ∧ ds.all Char.isDigit then some ((digitsVal ds : Int)) else none

/-- `api.py` `convert`: `new_type(data)`, returning `default` when the
conversion raises. -/
def convert (data : Chars) (new_type : PyType) (default : Value) : Value :=
  match new_type with
  | .int =>
      match pyInt? data with
      | some n => .vint n
      | none => default
  | .str => .vstr data

/-- `api.py` `check_args`: the per-claim inputs are the handler's
annotated parameter types (`func.__annotations__.values()`, in
declaration order), its trailing default values (`func.__defaults__`)
and the user-supplied tokens.  Arithmetic on the required count is
done over `Int` exactly as Python does it. -/
def check_args (anns : List PyType) (defaults : List Value)
    (input_args : List Chars) : Option (List Value) :=
  if anns.isEmpty then some [] else
  let required_args : Int := (anns.length : Int) - (defaults.length : Int)
  if (input_args.length : Int) < required_args then none else
  let converted_args := anns.enum.map (fun p =>
    let dv : Value :=
      if (p.1 : Int) + 1 > required_args then
        defaults.getD ((p.1 : Int) - required_args).toNat Value.wrong
      else Value.wrong
    if p.1 < input_args.length then convert (input_args.getD p.1 []) p.2 dv else dv)
  if Value.wrong ∈ converted_args then none else some converted_args

/-- C2: `check_args` rejects when fewer tokens than required
parameters are supplied; a successful result is positionally aligned
with the declared parameters (surplus tokens are ignored); the three
behaviours named by the spec hold at `(int, str)` with default
`"hi"` and at `(int,)` with no default; a conversion failure at a
position holding a default substitutes the default; surplus tokens
are dropped. -/
theorem check_args_spec :
    (∀ (anns : List PyType) (defaults : List Value) (toks : List Chars),
        anns ≠ [] →
        (toks.length : Int) < (anns.length : Int) - (defaults.length : Int) →
        check_args anns defaults toks = none)
    ∧ (∀ (anns : List PyType) (defaults : List Value) (toks : List Chars)
        (res : List Value),
        check_args anns defaults toks = some res → res.length = anns.length)
    ∧ check_args [PyType.int, PyType.str] [Value.vstr (chars "hi")] [chars "5"]
        = some [Value.vint 5, Value.vstr (chars "hi")]
    ∧ check_args [PyType.int, PyType.str] [Value.vstr (chars "hi")] [] = none
    ∧ check_args [PyType.int] [] [chars "abc"] = none
    ∧ check_args [PyType.int] [Value.vint 7] [chars "abc"] = some [Value.vint 7]
    ∧ check_args [PyType.int] [] [chars "1", chars "2", chars "3"]
        = some [Value.vint 1] := by
  refine ⟨?_, ?_, by decide, by decide, by decide, by decide, by decide⟩
  · intro anns defaults toks hne hlt
    have hemp : anns.isEmpty = false := by
      cases anns with
      | nil => simp at hne
      | cons a t => rfl
    simp only [check_args, hemp, Bool.false_eq_true, if_false, if_pos hlt]
  · intro anns defaults toks res h
    by_cases hemp : anns.isEmpty
    · simp only [check_args, hemp, if_true] at h
      cases h
      cases anns with
      | nil => rfl
      | cons a t => simp [List.isEmpty] at hemp
    · simp only [check_args, hemp, Bool.false_eq_true, if_false] at h
      by_cases hlt : (toks.length : Int) < (anns.length : Int) - (defaults.length : Int)
      · rw [if_pos hlt] at h; cases h
      · rw [if_neg hlt] at h
        by_cases hw : Value.wrong ∈ (anns.enum.map (fun p =>
            let dv : Value :=
              if (p.1 : Int) + 1 > (anns.length : Int) - (defaults.length : Int) then
                defaults.getD ((p.1 : Int) - ((anns.length : Int) - (defaults.length : Int))).toNat Value.wrong
              else Value.wrong
            if p.1 < toks.length then convert (toks.getD p.1 []) p.2 dv else dv))
        · rw [if_pos hw] at h; cases h
        · rw [if_neg hw] at h
          cases h
          simp [List.enum_length]

/-- C2 witness: the insufficient-arguments branch at a concrete
declaration. -/
theorem check_args_spec_witness :
    check_args [PyType.int] [] [] = none :=
  check_args_spec.1 [PyType.int] [] [] (by decide) (by decide)

/- ### Named-rule matching (`api.py`, `command` decorator) -/

/-- Alias normalisation in `command`: `if not alias or not name in
alias: alias += (name,)`. -/
def commandAliases (name : Chars) (als : List Chars) : List Chars :=
  if als.isEmpty ∨ name ∉ als then als ++ [name] else als

/-- The generated predicate of a Named rule, applied to a message
text: `True in [text == PREFIX + cmd or text.startswith(PREFIX + cmd
+ " ") for cmd in alias]`. -/
def commandMatches (pfx : Chars) (als : List Chars) (text : Chars) : Bool :=
  als.any (fun cmd => text == pfx ++ cmd || (pfx ++ cmd ++ [' ']).isPrefixOf text)

/-- C3 counterexample: the rule built by `command(name="p",
alias=("ping",))` has trigger set `["ping", "p"]`.  The text
`"!ping"` is the prefix `"!"` followed by the name `"p"` and then the
non-space character `'i'`, yet it matches (via the alias `"ping"`),
refuting "a text P+C immediately followed by a non-space character
does not match". -/
theorem commandMatches_alias_cex :
    commandMatches (chars "!") (commandAliases (chars "p") [chars "ping"])
        (chars "!" ++ chars "p" ++ chars "ing") = true
    ∧ chars "p" ∈ commandAliases (chars "p") [chars "ping"]
    ∧ chars "ing" = 'i' :: chars "ng" ∧ ('i' : Char) ≠ ' ' := by
  refine ⟨by decide, by decide, by decide, by decide⟩

/-- C3, amended: for any alias `C` of a Named rule, `P+C` matches and
`P+C` followed by a space matches; for a rule whose full trigger set
is the single name `C`, a text `P+C` followed by a non-space
character does not match, and a text not starting with `P+C` does not
match.  (With several aliases the two negative properties can fail,
as another alias may fire.) -/
theorem commandMatches_spec :
    (∀ (P C : Chars) (L : List Chars), C ∈ L →
        commandMatches P L (P ++ C) = true)
    ∧ (∀ (P C : Chars) (L : List Chars) (s : Chars), C ∈ L →
        commandMatches P L (P ++ C ++ ' ' :: s) = true)
    ∧ (∀ (P C : Chars) (c : Char) (s : Chars), c ≠ ' ' →
        commandMatches P [C] (P ++ C ++ c :: s) = false)
    ∧ (∀ (P C text : Chars), ¬ (P ++ C) <+: text →
        commandMatches P [C] text = false) := by
  refine ⟨?_, ?_, ?_, ?_⟩
  · intro P C L hC
    rw [commandMatches, List.any_eq_true]
    exact ⟨C, hC, by simp⟩
  · intro P C L s hC
    rw [commandMatches, List.any_eq_true]
    refine ⟨C, hC, ?_⟩
    have hpre : (P ++ C ++ [' ']).isPrefixOf (P ++ C ++ ' ' :: s) = true := by
      rw [List.isPrefixOf_iff_prefix]
      exact ⟨s, by simp⟩
    simp [hpre]
  · intro P C c s hc
    rw [commandMatches]
    simp only [List.any_cons, List.any_nil, Bool.or_false]
    have h1 : (P ++ C ++ c :: s == P ++ C) = false := by
      rw [beq_eq_false_iff_ne]
      intro h
      have : (P ++ C) ++ (c :: s) = (P ++ C) ++ [] := by
        rw [List.append_nil]
        exact h
      have := List.append_cancel_left this
      cases this
    have h2 : (P ++ C ++ [' ']).isPrefixOf (P ++ C ++ c :: s) = false := by
      rw [Bool.eq_false_iff]
      intro h
      rw [List.isPrefixOf_iff_prefix] at h
      have h' : (P ++ C) ++ [' '] <+: (P ++ C) ++ c :: s := by
        simpa [List.append_assoc] using h
      rw [prefix_cancel_left] at h'
      rcases h' with ⟨t, ht⟩
      rw [List.singleton_append] at ht
      cases ht
      exact hc rfl
    rw [h1, h2]
    rfl
  · intro P C text hpre
    rw [commandMatches]
    simp only [List.any_cons, List.any_nil, Bool.or_false]
    have h1 : (text == P ++ C) = false := by
      rw [beq_eq_false_iff_ne]
      intro h
      exact hpre (h ▸ List.prefix_refl _)
    have h2 : (P ++ C ++ [' ']).isPrefixOf text = false := by
      rw [Bool.eq_false_iff]
      intro h
      rw [List.isPrefixOf_iff_prefix] at h
      exact hpre (List.IsPrefix.trans (by exact ⟨[' '], rfl⟩) h)
    rw [h1, h2]
    rfl

/-- C3 witness: the four amended properties at a concrete rule. -/
theorem commandMatches_spec_witness :
    commandMatches (chars "!") [chars "ping"] (chars "!" ++ chars "ping") = true
    ∧ commandMatches (chars "!") [chars "ping"]
        (chars "!" ++ chars "ping" ++ ' ' :: chars "x") = true
    ∧ commandMatches (chars "!") [chars "ping"]
        (chars "!" ++ chars "ping" ++ 'x' :: []) = false
    ∧ commandMatches (chars "!") [chars "ping"] (chars "?ping") = false :=
  ⟨commandMatches_spec.1 (chars "!") (chars "ping") [chars "ping"] (by decide),
   commandMatches_spec.2.1 (chars "!") (chars "ping") [chars "ping"] (chars "x") (by decide),
   commandMatches_spec.2.2.1 (chars "!") (chars "ping") 'x' [] (by decide),
   commandMatches_spec.2.2.2 (chars "!") (chars "ping") (chars "?ping") (by decide)⟩

/- ### Line parsing (`irc.py`, class Message) -/

/-- Python `\\w` over ASCII: letters, digits, underscore. -/
def isWordChar (c : Char) : Bool := c.isAlphanum || c = '_'

/-- The author character class of the PRIVMSG pattern,
`[\\w.~|\\-\\[\\]]`. -/
def isAuthorChar (c : Char) : Bool :=
  isWordChar c || c = '.' || c = '~' || c = '|' || c = '-' || c = '[' || c = ']'

/-- The literal `" PRIVMSG "` of the pattern. -/
def privmsgLit : Chars := [' ', 'P', 'R', 'I', 'V', 'M', 'S', 'G', ' ']

/-- The literal `" :"` separating destination and text. -/
def sepLit : Chars := [' ', ':']

/-- `^:(?P<author>[\\w.~|\\-\\[\\]]+)`: a leading colon and a maximal
nonempty run of author characters.  The following regex piece needs
`'!'` or `' '` next, neither of which is an author character, so the
greedy run never backtracks. -/
def parseAuthor (raw : Chars) : Option (Chars × Chars) :=
  match raw with
  | [] => none
  | c :: r0 =>
      if c = ':' then
        let a := r0.takeWhile isAuthorChar
        if a.isEmpty then none else some (a, r0.dropWhile isAuthorChar)
      else none

/-- `(?:!(?P<host>\\S+))?`: an optional `!` plus a maximal nonempty run
of non-whitespace characters.  The piece after it requires a literal
space, so the greedy run never backtracks, and when the next character
is `'!'` the optional group cannot be skipped. -/
def parseHost (r1 : Chars) : Option (Chars × Chars) :=
  match r1 with
  | [] => some ([], [])
  | c :: r2 =>
      if c = '!' then
        let h := r2.takeWhile (fun x => !pyIsSpace x)
        if h.isEmpty then none
        else some ('!' :: h, r2.dropWhile (fun x => !pyIsSpace x))
      else some ([], c :: r2)

/-- A literal piece of the pattern. -/
def parseLit (lit r : Chars) : Option Chars :=
  if lit.isPrefixOf r then some (r.drop lit.length) else none

/-- `(?P<to>\\S+)`: a maximal nonempty run of non-whitespace
characters (a literal space follows, so no backtracking). -/
def parseTo (r : Chars) : Option (Chars × Chars) :=
  let t := r.takeWhile (fun x => !pyIsSpace x)
  if t.isEmpty then none else some (t, r.dropWhile (fun x => !pyIsSpace x))

/-- `(?P<text>.+)`: a maximal nonempty run of non-newline characters;
the pattern ends here so the greedy run is the capture. -/
def parseText (r : Chars) : Option (Chars × Chars) :=
  let t := r.takeWhile (fun x => x != '\n')
  if t.isEmpty then none else some (t, r.dropWhile (fun x => x != '\n'))

/-- `re.search(Message.pattern, raw)`: the anchored PRIVMSG pattern,
returning the three captured groups `(author, to, text)`. -/
def matchPrivmsg (raw : Chars) : Option (Chars × Chars × Chars) :=
  match parseAuthor raw with
  | none => none
  | some (author, r1) =>
    match parseHost r1 with
    | none => none
    | some (_, r3) =>
      match parseLit privmsgLit r3 with
      | none => none
      | some r4 =>
        match parseTo r4 with
        | none => none
        | some (dest, r5) =>
          match parseLit sepLit r5 with
          | none => none
          | some r6 =>
            match parseText r6 with
            | none => none
            | some (text, _) => some (author, dest, text)

/-- `irc.py` `Message`: author, destination and text fields.  The
`dest` field embeds the Python attribute named `to`. -/
structure Message where
  author : Chars
  dest : Chars
  text : Chars
deriving DecidableEq

/-- `Message.__init__`: on a regex match, the fields are exactly the
captured groups; otherwise all three fields are the empty string.
The function is total: construction never raises. -/
def mkMessage (raw : Chars) : Message :=
  match matchPrivmsg raw with
  | some (a, t, x) => ⟨a, t, x⟩
  | none => ⟨[], [], []⟩

/-- The declarative PRIVMSG shape: the raw line decomposes as
`:<author>[!<host>] PRIVMSG <to> :<text>` with the regex character
classes, possibly followed by a newline-led tail (the pattern is not
end-anchored and `.` excludes newlines). -/
def PrivmsgShape (raw author dest text : Chars) : Prop :=
  ∃ hostPart trailing,
    raw = ':' :: (author ++ (hostPart ++ (privmsgLit ++ (dest ++ (sepLit ++ (text ++ trailing))))))
    ∧ author ≠ [] ∧ (∀ c ∈ author, isAuthorChar c = true)
    ∧ (hostPart = [] ∨ ∃ host, hostPart = '!' :: host ∧ host ≠ [] ∧
        ∀ c ∈ host, pyIsSpace c = false)
    ∧ dest ≠ [] ∧ (∀ c ∈ dest, pyIsSpace c = false)
    ∧ text ≠ [] ∧ (∀ c ∈ text, c ≠ '\n')
    ∧ (trailing = [] ∨ ∃ rest, trailing = '\n' :: rest)

theorem parseAuthor_sound (raw a r : Chars) (h : parseAuthor raw = some (a, r)) :
    raw = ':' :: (a ++ r) ∧ a ≠ [] ∧ (∀ c ∈ a, isAuthorChar c = true) := by
  cases raw with
  | nil => simp [parseAuthor] at h
  | cons c r0 =>
      by_cases hc : c = ':'
      · subst hc
        simp only [parseAuthor, if_pos rfl, if_true] at h
        by_cases he : (r0.takeWhile isAuthorChar).isEmpty
        · rw [if_pos he] at h; cases h
        · rw [if_neg he] at h
          rw [Option.some.injEq, Prod.mk.injEq] at h
          obtain ⟨h1, h2⟩ := h
          subst h1; subst h2
          refine ⟨by rw [List.takeWhile_append_dropWhile], ?_, ?_⟩
          · intro hnil; rw [hnil] at he; exact he rfl
          · exact fun x hx => mem_takeWhile_pred _ r0 x hx
      · simp [parseAuthor, hc] at h

theorem parseAuthor_complete (a r : Chars) (ha : a ≠ [])
    (hall : ∀ c ∈ a, isAuthorChar c = true)
    (hr : ∀ c t, r = c :: t → isAuthorChar c = false) :
    parseAuthor (':' :: (a ++ r)) = some (a, r) := by
  have ht := takeWhile_append_of isAuthorChar a r hall hr
  have hd := dropWhile_append_of isAuthorChar a r hall hr
  have he : a.isEmpty = false := by
    cases a with
    | nil => exact absurd rfl ha
    | cons y ys => rfl
  simp only [parseAuthor, if_pos rfl, if_true, ht, hd, he, Bool.false_eq_true, if_false]

theorem parseHost_sound (r1 hp r : Chars) (h : parseHost r1 = some (hp, r)) :
    r1 = hp ++ r ∧ (hp = [] ∨ ∃ host, hp = '!' :: host ∧ host ≠ [] ∧
      ∀ c ∈ host, pyIsSpace c = false) := by
  cases r1 with
  | nil =>
      simp only [parseHost, Option.some.injEq, Prod.mk.injEq] at h
      obtain ⟨h1, h2⟩ := h
      subst h1; subst h2
      exact ⟨rfl, Or.inl rfl⟩
  | cons c r2 =>
      by_cases hc : c = '!'
      · subst hc
        simp only [parseHost, if_pos rfl, if_true] at h
        by_cases he : (r2.takeWhile (fun x => !pyIsSpace x)).isEmpty
        · rw [if_pos he] at h; cases h
        · rw [if_neg he] at h
          rw [Option.some.injEq, Prod.mk.injEq] at h
          obtain ⟨h1, h2⟩ := h
          subst h1; subst h2
          constructor
          · rw [List.cons_append, List.takeWhile_append_dropWhile]
          · refine Or.inr ⟨_, rfl, ?_, ?_⟩
            · intro hnil; rw [hnil] at he; exact he rfl
            · intro x hx
              have := mem_takeWhile_pred _ r2 x hx
              rw [Bool.not_eq_true'] at this
              exact this
      · simp only [parseHost, if_neg hc, Option.some.injEq, Prod.mk.injEq] at h
        obtain ⟨h1, h2⟩ := h
        subst h1; subst h2
        exact ⟨rfl, Or.inl rfl⟩

theorem parseHost_complete_skip (r1 : Chars)
    (h : ∀ c t, r1 = c :: t → c ≠ '!') : parseHost r1 = some ([], r1) := by
  cases r1 with
  | nil => rfl
  | cons c t => simp [parseHost, h c t rfl]

theorem parseHost_complete_host (host r : Chars) (hh : host ≠ [])
    (hall : ∀ c ∈ host, pyIsSpace c = false)
    (hr : ∀ c t, r = c :: t → pyIsSpace c = true) :
    parseHost ('!' :: (host ++ r)) = some ('!' :: host, r) := by
  have hall' : ∀ c ∈ host, (!pyIsSpace c) = true := by
    intro c hc; simp [hall c hc]
  have hr' : ∀ c t, r = c :: t → (!pyIsSpace c) = false := by
    intro c t hct; simp [hr c t hct]
  have ht := takeWhile_append_of (fun x => !pyIsSpace x) host r hall' hr'
  have hd := dropWhile_append_of (fun x => !pyIsSpace x) host r hall' hr'
  have he : host.isEmpty = false := by
    cases host with
    | nil => exact absurd rfl hh
    | cons y ys => rfl
  simp only [parseHost, if_pos rfl, if_true, ht, hd, he, Bool.false_eq_true, if_false]

theorem parseLit_sound (lit r r' : Chars) (h : parseLit lit r = some r') :
    r = lit ++ r' := by
  by_cases hp : lit.isPrefixOf r
  · rw [parseLit, if_pos hp, Option.some.injEq] at h
    subst h
    rw [List.isPrefixOf_iff_prefix] at hp
    obtain ⟨t, ht⟩ := hp
    rw [← ht, List.drop_left]
  · rw [parseLit, if_neg hp] at h; cases h

theorem parseLit_complete (lit r : Chars) : parseLit lit (lit ++ r) = some r := by
  have hp : lit.isPrefixOf (lit ++ r) := by
    rw [List.isPrefixOf_iff_prefix]; exact ⟨r, rfl⟩
  rw [parseLit, if_pos hp, List.drop_left]

theorem parseTo_sound (r t r' : Chars) (h : parseTo r = some (t, r')) :
    r = t ++ r' ∧ t ≠ [] ∧ (∀ c ∈ t, pyIsSpace c = false) := by
  by_cases he : (r.takeWhile (fun x => !pyIsSpace x)).isEmpty
  · rw [parseTo] at h; rw [if_pos he] at h; cases h
  · rw [parseTo] at h; rw [if_neg he] at h
    rw [Option.some.injEq, Prod.mk.injEq] at h
    obtain ⟨h1, h2⟩ := h
    subst h1; subst h2
    refine ⟨by rw [List.takeWhile_append_dropWhile], ?_, ?_⟩
    · intro hnil; rw [hnil] at he; exact he rfl
    · intro x hx
      have := mem_takeWhile_pred _ r x hx
      simpa using this

theorem parseTo_complete (t r : Chars) (ht : t ≠ [])
    (hall : ∀ c ∈ t, pyIsSpace c = false)
    (hr : ∀ c s, r = c :: s → pyIsSpace c = true) :
    parseTo (t ++ r) = some (t, r) := by
  have hall' : ∀ c ∈ t, (!pyIsSpace c) = true := by
    intro c hc; simp [hall c hc]
  have hr' : ∀ c s, r = c :: s → (!pyIsSpace c) = false := by
    intro c s hcs; simp [hr c s hcs]
  have htw := takeWhile_append_of (fun x => !pyIsSpace x) t r hall' hr'
  have hdw := dropWhile_append_of (fun x => !pyIsSpace x) t r hall' hr'
  have he : t.isEmpty = false := by
    cases t with
    | nil => exact absurd rfl ht
    | cons y ys => rfl
  simp only [parseTo, htw, hdw, he, Bool.false_eq_true, if_false]

theorem parseText_sound (r t r' : Chars) (h : parseText r = some (t, r')) :
    r = t ++ r' ∧ t ≠ [] ∧ (∀ c ∈ t, c ≠ '\n')
      ∧ (r' = [] ∨ ∃ s, r' = '\n' :: s) := by
  by_cases he : (r.takeWhile (fun x => x != '\n')).isEmpty
  · rw [parseText] at h; rw [if_pos he] at h; cases h
  · rw [parseText] at h; rw [if_neg he] at h
    rw [Option.some.injEq, Prod.mk.injEq] at h
    obtain ⟨h1, h2⟩ := h
    subst h1; subst h2
    refine ⟨by rw [List.takeWhile_append_dropWhile], ?_, ?_, ?_⟩
    · intro hnil; rw [hnil] at he; exact he rfl
    · intro x hx
      have := mem_takeWhile_pred _ r x hx
      simpa using this
    · cases hdw : r.dropWhile (fun x => x != '\n') with
      | nil => exact Or.inl rfl
      | cons c s =>
          have := dropWhile_head_pred (fun x => x != '\n') r c s hdw
          simp only [bne_eq_false_iff_eq] at this
          exact Or.inr ⟨s, by rw [this]⟩

theorem parseText_complete (t r : Chars) (ht : t ≠ [])
    (hall : ∀ c ∈ t, c ≠ '\n') (hr : r = [] ∨ ∃ s, r = '\n' :: s) :
    parseText (t ++ r) = some (t, r) := by
  have hall' : ∀ c ∈ t, (c != '\n') = true := by
    intro c hc; simpa using hall c hc
  have hr' : ∀ c s, r = c :: s → (c != '\n') = false := by
    intro c s hcs
    rcases hr with h0 | ⟨s', hs'⟩
    · rw [h0] at hcs; cases hcs
    · rw [hs'] at hcs
      rw [List.cons.injEq] at hcs
      simp [← hcs.1]
  have htw := takeWhile_append_of (fun x => x != '\n') t r hall' hr'
  have hdw := dropWhile_append_of (fun x => x != '\n') t r hall' hr'
  have he : t.isEmpty = false := by
    cases t with
    | nil => exact absurd rfl ht
    | cons y ys => rfl
  simp only [parseText, htw, hdw, he, Bool.false_eq_true, if_false]

theorem matchPrivmsg_sound (raw a d x : Chars)
    (h : matchPrivmsg raw = some (a, d, x)) : PrivmsgShape raw a d x := by
  cases h1 : parseAuthor raw with
  | none => simp [matchPrivmsg, h1] at h
  | some p1 =>
    obtain ⟨a', r1⟩ := p1
    cases h2 : parseHost r1 with
    | none => simp [matchPrivmsg, h1, h2] at h
    | some p2 =>
      obtain ⟨hp, r3⟩ := p2
      cases h3 : parseLit privmsgLit r3 with
      | none => simp [matchPrivmsg, h1, h2, h3] at h
      | some r4 =>
        cases h4 : parseTo r4 with
        | none => simp [matchPrivmsg, h1, h2, h3, h4] at h
        | some p4 =>
          obtain ⟨d', r5⟩ := p4
          cases h5 : parseLit sepLit r5 with
          | none => simp [matchPrivmsg, h1, h2, h3, h4, h5] at h
          | some r6 =>
            cases h6 : parseText r6 with
            | none => simp [matchPrivmsg, h1, h2, h3, h4, h5, h6] at h
            | some p6 =>
              obtain ⟨x', tr⟩ := p6
              simp only [matchPrivmsg, h1, h2, h3, h4, h5, h6,
                Option.some.injEq, Prod.mk.injEq] at h
              obtain ⟨ea, ed, ex⟩ := h
              subst ea; subst ed; subst ex
              obtain ⟨e1, ha, hauth⟩ := parseAuthor_sound raw a' r1 h1
              obtain ⟨e2, hhp⟩ := parseHost_sound r1 hp r3 h2
              have e3 := parseLit_sound privmsgLit r3 r4 h3
              obtain ⟨e4, hd, hdest⟩ := parseTo_sound r4 d' r5 h4
              have e5 := parseLit_sound sepLit r5 r6 h5
              obtain ⟨e6, hx, htext, htr⟩ := parseText_sound r6 x' tr h6
              refine ⟨hp, tr, ?_, ha, hauth, hhp, hd, hdest, hx, htext, htr⟩
              rw [e1, e2, e3, e4, e5, e6]

theorem matchPrivmsg_complete (raw a d x : Chars) (h : PrivmsgShape raw a d x) :
    matchPrivmsg raw = some (a, d, x) := by
  obtain ⟨hp, tr, heq, ha, hauth, hhp, hd, hdest, hx, htext, htr⟩ := h
  subst heq
  have s4 := parseTo_complete d (sepLit ++ (x ++ tr)) hd hdest (by
    intro c s hcs
    rw [sepLit, List.cons_append, List.cons.injEq] at hcs
    obtain ⟨hc1, -⟩ := hcs
    subst hc1
    decide)
  have s5 : parseLit sepLit (sepLit ++ (x ++ tr)) = some (x ++ tr) :=
    parseLit_complete sepLit (x ++ tr)
  have s6 : parseText (x ++ tr) = some (x, tr) :=
    parseText_complete x tr hx htext htr
  have s3 : parseLit privmsgLit (privmsgLit ++ (d ++ (sepLit ++ (x ++ tr))))
      = some (d ++ (sepLit ++ (x ++ tr))) :=
    parseLit_complete privmsgLit (d ++ (sepLit ++ (x ++ tr)))
  rcases hhp with h0 | ⟨host, hhp', hhost, hhostc⟩
  · -- the optional host group is absent: the author run is followed by
    -- the literal space of " PRIVMSG "
    subst h0
    have hb1 : ∀ c t,
        (([] : Chars) ++ (privmsgLit ++ (d ++ (sepLit ++ (x ++ tr))))) = c :: t →
        isAuthorChar c = false := by
      intro c t hct
      rw [List.nil_append, privmsgLit, List.cons_append, List.cons.injEq] at hct
      obtain ⟨hc1, -⟩ := hct
      subst hc1
      decide
    have s1 := parseAuthor_complete a _ ha hauth hb1
    simp only [List.nil_append] at s1
    have s2 : parseHost (privmsgLit ++ (d ++ (sepLit ++ (x ++ tr))))
        = some ([], privmsgLit ++ (d ++ (sepLit ++ (x ++ tr)))) := by
      apply parseHost_complete_skip
      intro c t hct
      rw [privmsgLit, List.cons_append, List.cons.injEq] at hct
      obtain ⟨hc1, -⟩ := hct
      subst hc1
      decide
    simp only [matchPrivmsg, List.nil_append, s1, s2, s3, s4, s5, s6]
  · -- the optional host group is present: the author run is followed
    -- by '!'
    subst hhp'
    have hb1 : ∀ c t,
        (('!' :: host) ++ (privmsgLit ++ (d ++ (sepLit ++ (x ++ tr))))) = c :: t →
        isAuthorChar c = false := by
      intro c t hct
      rw [List.cons_append, List.cons.injEq] at hct
      obtain ⟨hc1, -⟩ := hct
      subst hc1
      decide
    have s1 := parseAuthor_complete a _ ha hauth hb1
    have s2 : parseHost (('!' :: host) ++ (privmsgLit ++ (d ++ (sepLit ++ (x ++ tr)))))
        = some ('!' :: host, privmsgLit ++ (d ++ (sepLit ++ (x ++ tr)))) := by
      rw [List.cons_append]
      apply parseHost_complete_host host _ hhost hhostc
      intro c t hct
      rw [privmsgLit, List.cons_append, List.cons.injEq] at hct
      obtain ⟨hc1, -⟩ := hct
      subst hc1
      decide
    simp only [matchPrivmsg, s1, s2, s3, s4, s5, s6]

/-- C4: for every raw line matching the PRIVMSG shape, the constructed
Message's author, destination and text fields equal exactly the three
captured groups (the literal segments of the line, with no
normalization); for every non-matching raw line all three fields are
the empty string.  `mkMessage` is a total function, so construction
never raises. -/
theorem privmsg_fields (raw : Chars) :
    (∀ a d x, PrivmsgShape raw a d x → mkMessage raw = ⟨a, d, x⟩)
    ∧ ((∀ a d x, ¬ PrivmsgShape raw a d x) → mkMessage raw = ⟨[], [], []⟩) := by
  constructor
  · intro a d x hs
    have := matchPrivmsg_complete raw a d x hs
    simp [mkMessage, this]
  · intro hns
    cases hm : matchPrivmsg raw with
    | none => simp [mkMessage, hm]
    | some p =>
        obtain ⟨a, d, x⟩ := p
        exact absurd (matchPrivmsg_sound raw a d x hm) (hns a d x)

/-- C4 witness: a concrete PRIVMSG line is parsed into its three
groups. -/
theorem privmsg_fields_witness :
    mkMessage (chars ":alice PRIVMSG #room :hi")
      = ⟨chars "alice", chars "#room", chars "hi"⟩ :=
  (privmsg_fields (chars ":alice PRIVMSG #room :hi")).1
    (chars "alice") (chars "#room") (chars "hi")
    ⟨[], [], by decide, by decide, by decide, Or.inl rfl, by decide, by decide,
      by decide, by decide, Or.inl rfl⟩

/- ### Background reader (`irc.py`, `IRC.__handle`) -/

/-- The literal `"PING"`. -/
def pingLit : Chars := ['P', 'I', 'N', 'G']

/-- The literal `"PONG"`. -/
def pongLit : Chars := ['P', 'O', 'N', 'G']

/-- Python `msg.replace("PING", "PONG")`: left-to-right,
non-overlapping replacement of every occurrence. -/
def replacePing : Chars → Chars
  | 'P' :: 'I' :: 'N' :: 'G' :: rest => pongLit ++ replacePing rest
  | c :: rest => c :: replacePing rest
  | [] => []

/-- What `__handle` does with one line of the split received data. -/
inductive HandleAction where
  | send (line : Chars)
  | enqueue (line : Chars)
  | skip
deriving DecidableEq

/-- Whether an action enqueues onto the inbox. -/
def HandleAction.isEnqueue : HandleAction → Bool
  | .enqueue _ => true
  | _ => false

/-- `__handle`, per line: `if msg.startswith("PING"):
send(msg.replace("PING", "PONG"))` — `elif len(msg):
inbox.put(msg)`. -/
def handleLine (msg : Chars) : HandleAction :=
  if pingLit.isPrefixOf msg then .send (replacePing msg)
  else if msg.length ≠ 0 then .enqueue msg
  else .skip

/-- `data.split("\r\n")`. -/
def splitLines : Chars → List Chars
  | [] => [[]]
  | '\r' :: '\n' :: rest => [] :: splitLines rest
  | c :: rest =>
      match splitLines rest with
      | [] => [[c]]
      | t :: ts => (c :: t) :: ts

/-- `__handle`, per received chunk. -/
def handleData (data : Chars) : List HandleAction :=
  (splitLines data).map handleLine

theorem replacePing_of_ping (msg : Chars) (h : pingLit.isPrefixOf msg = true) :
    replacePing msg = pongLit ++ replacePing (msg.drop 4) := by
  rw [List.isPrefixOf_iff_prefix] at h
  obtain ⟨t, ht⟩ := h
  subst ht
  rfl

/-- C8: a line starting with `"PING"` makes the reader send the
corresponding `PONG` line — `"PONG"` followed by the rest of the line
(with any further `"PING"` occurrences also replaced) — and never
enqueues it; every other non-empty line is enqueued unchanged. -/
theorem ping_pong_reader :
    (∀ msg : Chars, pingLit.isPrefixOf msg = true →
        handleLine msg = HandleAction.send (pongLit ++ replacePing (msg.drop 4))
        ∧ (handleLine msg).isEnqueue = false)
    ∧ (∀ msg : Chars, pingLit.isPrefixOf msg = false → msg ≠ [] →
        handleLine msg = HandleAction.enqueue msg) := by
  constructor
  · intro msg h
    rw [handleLine, if_pos h, replacePing_of_ping msg h]
    exact ⟨rfl, rfl⟩
  · intro msg h hne
    rw [handleLine, if_neg (by simp [h]), if_pos (by simpa using hne)]

/-- C8 witness: a concrete PING line is answered, not enqueued, and a
concrete other line is enqueued. -/
theorem ping_pong_reader_witness :
    (handleLine (chars "PING :abc") = HandleAction.send (pongLit ++ replacePing ((chars "PING :abc").drop 4))
      ∧ (handleLine (chars "PING :abc")).isEnqueue = false)
    ∧ handleLine (chars ":srv NOTICE x") = HandleAction.enqueue (chars ":srv NOTICE x") :=
  ⟨ping_pong_reader.1 (chars "PING :abc") (by decide),
   ping_pong_reader.2 (chars ":srv NOTICE x") (by decide) (by decide)⟩

/- ### Connection handshake (`irc.py`, `IRC.connexion`) -/

/-- `f"USER {nick} * * :{nick}"`. -/
def userLine (nick : Chars) : Chars :=
  chars "USER " ++ nick ++ chars " * * :" ++ nick

/-- `f"NICK {nick}"`. -/
def nickLine (nick : Chars) : Chars := chars "NICK " ++ nick

/-- Python substring containment `pat in s`. -/
def containsSub (pat s : Chars) : Bool :=
  s.tails.any (fun t => pat.isPrefixOf t)

/-- The `waitfor` condition `"NOTICE" in m and "/AUTH" in m`. -/
def isAuthPrompt (m : Chars) : Bool :=
  containsSub (chars "NOTICE") m && containsSub (chars "/AUTH") m

/-- The `waitfor` condition `"You are now logged in" in m`. -/
def isLoggedIn (m : Chars) : Bool :=
  containsSub (chars "You are now logged in") m

/-- The observable outcome of `IRC.connexion`, as a function of the
lines the reader will deliver on the inbox queue. -/
inductive ConnOutcome where
  | ok (sent : List Chars)
  | nameError (sent : List Chars)
  | blocked (sent : List Chars)
deriving DecidableEq

/-- `IRC.connexion`: sends `USER` and `NICK`; with an auth pair it
waits for the login-prompt line and then evaluates
`f"AUTH {username}:{password}"` — but `username` and `password` are
unbound names in the source (the `auth` tuple is never unpacked), so
reaching that statement raises `NameError`.  Without auth it waits for
the logged-in confirmation and only then sets `connected = True`
(the `ok` outcome).  A `waitfor` whose condition no delivered line
satisfies blocks forever (the `blocked` outcome). -/
def connexion (nick : Chars) (auth : Option (Chars × Chars))
    (inbox : List Chars) : ConnOutcome :=
  let sent := [userLine nick, nickLine nick]
  match auth with
  | some _ =>
      match inbox.find? isAuthPrompt with
      | none => .blocked sent
      | some _ => .nameError sent
  | none =>
      match inbox.find? isLoggedIn with
      | none => .blocked sent
      | some _ => .ok sent

/-- C7: with an auth pair supplied, `connexion` never reaches the
connected state and never sends the credentials: once the login
prompt arrives it raises `NameError` (the credential send references
the unbound names `username` and `password`), and otherwise it blocks
forever; in both cases only the `USER` and `NICK` lines were sent.
Concretely evaluated at the failing input. -/
theorem connexion_auth_name_error :
    (∀ (nick : Chars) (cred : Chars × Chars) (inbox : List Chars),
        connexion nick (some cred) inbox
            = ConnOutcome.nameError [userLine nick, nickLine nick]
        ∨ connexion nick (some cred) inbox
            = ConnOutcome.blocked [userLine nick, nickLine nick])
    ∧ connexion (chars "bot") (some (chars "usr", chars "pw"))
        [chars ":srv NOTICE * :please /AUTH now",
         chars ":srv 900 :You are now logged in"]
        = ConnOutcome.nameError [userLine (chars "bot"), nickLine (chars "bot")] := by
  constructor
  · intro nick cred inbox
    cases hf : inbox.find? isAuthPrompt with
    | none => right; simp [connexion, hf]
    | some m => left; simp [connexion, hf]
  · decide

/- ### The receive-loop history slot (`api.py`, `Bot.__init__` and
`Bot.start`) -/

/-- The runtime value held by the `self.history` attribute: the
source assigns `self.history = limit`, so the slot holds the plain
integer `limit`, not a `History` instance. -/
inductive PyHistoryField where
  | intVal (limit : Int)
  | histVal (h : History Message)

/-- `Bot.__init__`: `self.history = limit`. -/
def botInitHistoryField (limit : Int) : PyHistoryField := .intVal limit

/-- The receive-loop statement `self.history.add(message)`: attribute
lookup `add` succeeds only on a `History` instance; on an `int` it
raises `AttributeError` (modelled as `none`). -/
def historyFieldAdd (f : PyHistoryField) (m : Message) : Option PyHistoryField :=
  match f with
  | .intVal _ => none
  | .histVal h => some (.histVal (h.add m))

/-- C1: the receive-loop cannot append any Message to a History,
because `Bot.__init__` stores the integer `limit` in `self.history`
instead of a `History` instance; the first `self.history.add(message)`
raises `AttributeError` for every limit and every message (shown also
at the concrete failing input: limit 100 and the parse of
`":alice PRIVMSG #room :hi"`). -/
theorem receive_loop_history_add_fails :
    (∀ (limit : Int) (m : Message),
        historyFieldAdd (botInitHistoryField limit) m = none)
    ∧ historyFieldAdd (botInitHistoryField 100)
        (mkMessage (chars ":alice PRIVMSG #room :hi")) = none := by
  exact ⟨fun limit m => rfl, rfl⟩

/- ### Command removal (`api.py`, `Bot.remove_command`) -/

/-- `name in d.keys()` on a dict embedded as an association list. -/
def dictHasKey {v : Type} (d : List (Chars × v)) (k : Chars) : Bool :=
  d.any (fun p => p.1 == k)

/-- `d.pop(name)`'s removal effect: delete the (unique) entry with
that key. -/
def dictRemove {v : Type} : List (Chars × v) → Chars → List (Chars × v)
  | [], _ => []
  | p :: rest, k => if p.1 == k then rest else p :: dictRemove rest k

/-- The two rule mappings of a Bot: `callbacks` and `commands_help`. -/
structure BotCmds (v : Type) where
  callbacks : List (Chars × v)
  commands_help : List (Chars × v)

/-- The outcome of `remove_command`: either it returns normally or a
`KeyError` escapes; either way the carried state is the state at that
moment. -/
inductive RemoveOutcome (v : Type) where
  | ok (b : BotCmds v)
  | keyError (b : BotCmds v)

/-- `Bot.remove_command`: `if command_name in self.callbacks.keys():
self.callbacks.pop(command_name); self.commands_help.pop(command_name)`.
The second `pop` has no default, so it raises `KeyError` when the name
is not a key of `commands_help` — after `callbacks` was already
mutated. -/
def remove_command {v : Type} (b : BotCmds v) (name : Chars) : RemoveOutcome v :=
  if dictHasKey b.callbacks name then
    let cb := dictRemove b.callbacks name
    if dictHasKey b.commands_help name then
      .ok ⟨cb, dictRemove b.commands_help name⟩
    else
      .keyError ⟨cb, b.commands_help⟩
  else .ok b

/-- Removing a key from a duplicate-free association list removes it
for good. -/
theorem dictHasKey_dictRemove {v : Type} :
    ∀ (d : List (Chars × v)) (k : Chars), (d.map Prod.fst).Nodup →
      dictHasKey (dictRemove d k) k = false := by
  intro d
  induction d with
  | nil => intro k _; rfl
  | cons p rest ih =>
      intro k hnd
      rw [List.map_cons, List.nodup_cons] at hnd
      by_cases hk : (p.1 == k) = true
      · rw [dictRemove, if_pos hk]
        rw [Bool.eq_false_iff]
        intro hmem
        rw [dictHasKey, List.any_eq_true] at hmem
        obtain ⟨q, hq, hqk⟩ := hmem
        apply hnd.1
        rw [List.mem_map]
        refine ⟨q, hq, ?_⟩
        rw [eq_of_beq hqk, ← eq_of_beq hk]
      · rw [dictRemove, if_neg hk]
        rw [dictHasKey, List.any_cons]
        have hpf : (p.1 == k) = false := by simpa using hk
        rw [hpf, Bool.false_or]
        exact ih k hnd.2

/-- C10: when a rule name is a key of `callbacks` but not of
`commands_help` (registered without `add_to_help`), `remove_command`
removes it from `callbacks` and then raises `KeyError` from the second
`pop`, leaving the two mappings updated non-atomically (and, for
duplicate-free callbacks, the name really is gone from `callbacks` in
that error state); when the name is not a key of `callbacks`, nothing
changes and no error is raised. -/
theorem remove_command_spec :
    (∀ (v : Type) (b : BotCmds v) (n : Chars),
        dictHasKey b.callbacks n = true → dictHasKey b.commands_help n = false →
        remove_command b n
          = RemoveOutcome.keyError ⟨dictRemove b.callbacks n, b.commands_help⟩)
    ∧ (∀ (v : Type) (b : BotCmds v) (n : Chars),
        dictHasKey b.callbacks n = true → dictHasKey b.commands_help n = false →
        (b.callbacks.map Prod.fst).Nodup →
        dictHasKey (dictRemove b.callbacks n) n = false)
    ∧ (∀ (v : Type) (b : BotCmds v) (n : Chars),
        dictHasKey b.callbacks n = false → remove_command b n = RemoveOutcome.ok b) := by
  refine ⟨?_, ?_, ?_⟩
  · intro v b n h1 h2
    rw [remove_command, if_pos h1, if_neg (by simp [h2])]
  · intro v b n _ _ hnd
    exact dictHasKey_dictRemove b.callbacks n hnd
  · intro v b n h1
    rw [remove_command, if_neg (by simp [h1])]

/-- C10 witness: a command registered without `add_to_help` is removed
from `callbacks` and the call ends in `KeyError`; an unknown name is a
no-op. -/
theorem remove_command_spec_witness :
    remove_command ⟨[(chars "ping", 1)], []⟩ (chars "ping")
        = RemoveOutcome.keyError
            ⟨dictRemove [(chars "ping", (1 : Nat))] (chars "ping"), []⟩
    ∧ remove_command (⟨[], []⟩ : BotCmds Nat) (chars "ping")
        = RemoveOutcome.ok ⟨[], []⟩ :=
  ⟨remove_command_spec.1 Nat ⟨[(chars "ping", 1)], []⟩ (chars "ping")
      (by decide) (by decide),
   remove_command_spec.2.2 Nat ⟨[], []⟩ (chars "ping") (by decide)⟩

/- ### Token parsing (`api.py`, `parse`) -/

/-- More helpers: `takeWhile`/`dropWhile` when every element
satisfies the predicate. -/
theorem takeWhile_eq_self_of {α : Type} (p : α → Bool) :
    ∀ (l : List α), (∀ x ∈ l, p x = true) → l.takeWhile p = l := by
  intro l
  induction l with
  | nil => intro _; rfl
  | cons a t ih =>
      intro h
      rw [List.takeWhile_cons_of_pos (h a (List.mem_cons_self a t))]
      rw [ih (fun x hx => h x (List.mem_cons_of_mem a hx))]

theorem dropWhile_eq_nil_of {α : Type} (p : α → Bool) :
    ∀ (l : List α), (∀ x ∈ l, p x = true) → l.dropWhile p = [] := by
  intro l
  induction l with
  | nil => intro _; rfl
  | cons a t ih =>
      intro h
      rw [List.dropWhile_cons_of_pos (h a (List.mem_cons_self a t))]
      exact ih (fun x hx => h x (List.mem_cons_of_mem a hx))

/-- The scanner of `parse`, implementing `re.findall` of
`((\"[^\"]+\"\ *)|(\x27[^\x27]+\x27\ *)|([^\ ]+\ *))` over the text:
at each position, a space starts no alternative and is skipped; a
quote with a matching later quote and nonempty content yields the
quoted run plus trailing spaces; otherwise the maximal nonempty
non-space run plus trailing spaces.  The greedy sub-patterns are all
followed by a mandatory character outside their class, so the regex
engine never backtracks and this deterministic scan is exact.  The
`fuel` argument (always at least the list length) makes the recursion
structural. -/
def parseScanF : Nat → Chars → List Chars
  | 0, _ => []
  | _ + 1, [] => []
  | fuel + 1, c :: rest =>
      if c = ' ' then parseScanF fuel rest
      else if (c = '"' ∨ c = squote) ∧ rest.takeWhile (fun x => x != c) ≠ []
          ∧ rest.dropWhile (fun x => x != c) ≠ [] then
        (c :: (rest.takeWhile (fun x => x != c)
            ++ c :: ((rest.dropWhile (fun x => x != c)).drop 1).takeWhile (fun x => x == ' ')))
          :: parseScanF fuel
              (((rest.dropWhile (fun x => x != c)).drop 1).dropWhile (fun x => x == ' '))
      else
        (c :: (rest.takeWhile (fun x => x != ' ')
            ++ (rest.dropWhile (fun x => x != ' ')).takeWhile (fun x => x == ' ')))
          :: parseScanF fuel
              ((rest.dropWhile (fun x => x != ' ')).dropWhile (fun x => x == ' '))

/-- The raw matches of `re.findall` on a text. -/
def parseScan (l : Chars) : List Chars := parseScanF l.length l

/-- Per-match post-processing in `parse`: `strip()` then removal of a
surrounding pair of double or single quotes. -/
def processTok (m : Chars) : Chars :=
  let s := pyStrip m
  if (s.head? = some '"' ∧ s.getLast? = some '"')
      ∨ (s.head? = some squote ∧ s.getLast? = some squote) then
    (s.drop 1).dropLast
  else s

/-- `api.py` `parse`: the processed token list of a message text. -/
def parse (message : Chars) : List Chars :=
  (parseScan message).map processTok

/-- A character that no branch of the scanner treats specially:
not a space, not a quote of either kind, and not whitespace. -/
def plainChar (c : Char) : Bool :=
  (c != ' ') && (c != '"') && (c != squote) && !pyIsSpace c

theorem parseScanF_nil : ∀ f, parseScanF f [] = [] := by
  intro f; cases f <;> rfl

theorem length_dropWhile_le' {α : Type} (p : α → Bool) (l : List α) :
    (l.dropWhile p).length ≤ l.length := by
  induction l with
  | nil => simp
  | cons a t ih =>
      by_cases h : p a = true
      · rw [List.dropWhile_cons_of_pos h]; exact le_trans ih (by simp)
      · rw [List.dropWhile_cons_of_neg (by simp [h])]

/-- The scanner does not depend on the exact fuel, as long as it is at
least the length of the text. -/
theorem parseScanF_fuel :
    ∀ (f1 f2 : Nat) (l : Chars), l.length ≤ f1 → l.length ≤ f2 →
      parseScanF f1 l = parseScanF f2 l := by
  intro f1
  induction f1 with
  | zero =>
      intro f2 l h1 _
      have : l = [] := List.length_eq_zero.mp (Nat.le_zero.mp h1)
      subst this
      rw [parseScanF_nil, parseScanF_nil]
  | succ f1 ih =>
      intro f2 l h1 h2
      cases f2 with
      | zero =>
          have : l = [] := List.length_eq_zero.mp (Nat.le_zero.mp h2)
          subst this
          rw [parseScanF_nil, parseScanF_nil]
      | succ f2 =>
          cases l with
          | nil => rfl
          | cons c rest =>
              have hrest : rest.length ≤ f1 := by
                simp at h1; omega
              have hrest2 : rest.length ≤ f2 := by
                simp at h2; omega
              simp only [parseScanF]
              by_cases hsp : c = ' '
              · rw [if_pos hsp, if_pos hsp]
                exact ih f2 rest hrest hrest2
              · rw [if_neg hsp, if_neg hsp]
                by_cases hq : (c = '"' ∨ c = squote)
                    ∧ rest.takeWhile (fun x => x != c) ≠ []
                    ∧ rest.dropWhile (fun x => x != c) ≠ []
                · rw [if_pos hq, if_pos hq]
                  congr 1
                  apply ih
                  · calc ((((rest.dropWhile (fun x => x != c)).drop 1).dropWhile
                          (fun x => x == ' ')).length)
                        ≤ ((rest.dropWhile (fun x => x != c)).drop 1).length :=
                          length_dropWhile_le' _ _
                      _ ≤ (rest.dropWhile (fun x => x != c)).length := by
                          rw [List.length_drop]; omega
                      _ ≤ rest.length := length_dropWhile_le' _ _
                      _ ≤ f1 := hrest
                  · calc ((((rest.dropWhile (fun x => x != c)).drop 1).dropWhile
                          (fun x => x == ' ')).length)
                        ≤ ((rest.dropWhile (fun x => x != c)).drop 1).length :=
                          length_dropWhile_le' _ _
                      _ ≤ (rest.dropWhile (fun x => x != c)).length := by
                          rw [List.length_drop]; omega
                      _ ≤ rest.length := length_dropWhile_le' _ _
                      _ ≤ f2 := hrest2
                · rw [if_neg hq, if_neg hq]
                  congr 1
                  apply ih
                  · calc (((rest.dropWhile (fun x => x != ' ')).dropWhile
                          (fun x => x == ' ')).length)
                        ≤ (rest.dropWhile (fun x => x != ' ')).length :=
                          length_dropWhile_le' _ _
                      _ ≤ rest.length := length_dropWhile_le' _ _
                      _ ≤ f1 := hrest
                  · calc (((rest.dropWhile (fun x => x != ' ')).dropWhile
                          (fun x => x == ' ')).length)
                        ≤ (rest.dropWhile (fun x => x != ' ')).length :=
                          length_dropWhile_le' _ _
                      _ ≤ rest.length := length_dropWhile_le' _ _
                      _ ≤ f2 := hrest2

theorem plainChar_props (c : Char) (h : plainChar c = true) :
    c ≠ ' ' ∧ c ≠ '"' ∧ c ≠ squote ∧ pyIsSpace c = false := by
  rw [plainChar] at h
  rw [Bool.and_eq_true, Bool.and_eq_true, Bool.and_eq_true] at h
  obtain ⟨⟨⟨h1, h2⟩, h3⟩, h4⟩ := h
  refine ⟨by simpa using h1, by simpa using h2, by simpa using h3, by simpa using h4⟩

theorem parseScan_plain_last (w : Chars) (hw : w ≠ [])
    (hall : ∀ c ∈ w, plainChar c = true) : parseScan w = [w] := by
  cases w with
  | nil => exact absurd rfl hw
  | cons c w' =>
      obtain ⟨hc1, hc2, hc3, -⟩ := plainChar_props c (hall c (List.mem_cons_self c w'))
      have hall' : ∀ x ∈ w', (x != ' ') = true := by
        intro x hx
        simpa using (plainChar_props x (hall x (List.mem_cons_of_mem c hx))).1
      have htw : w'.takeWhile (fun x => x != ' ') = w' := takeWhile_eq_self_of _ w' hall'
      have hdw : w'.dropWhile (fun x => x != ' ') = [] := dropWhile_eq_nil_of _ w' hall'
      have hq : ¬ ((c = '"' ∨ c = squote) ∧ w'.takeWhile (fun x => x != c) ≠ []
          ∧ w'.dropWhile (fun x => x != c) ≠ []) := by
        rintro ⟨h' | h', -, -⟩
        · exact hc2 h'
        · exact hc3 h'
      show parseScanF (w'.length + 1) (c :: w') = [c :: w']
      simp only [parseScanF, if_neg hc1, if_neg hq, htw, hdw]
      simp [parseScanF_nil]

theorem parseScan_plain_cons (w r : Chars) (hw : w ≠ [])
    (hallw : ∀ c ∈ w, plainChar c = true)
    (hr : ∀ d t, r = d :: t → plainChar d = true) :
    parseScan (w ++ ' ' :: r) = (w ++ [' ']) :: parseScan r := by
  cases w with
  | nil => exact absurd rfl hw
  | cons c w' =>
      obtain ⟨hc1, hc2, hc3, -⟩ := plainChar_props c (hallw c (List.mem_cons_self c w'))
      have hall' : ∀ x ∈ w', (x != ' ') = true := by
        intro x hx
        simpa using (plainChar_props x (hallw x (List.mem_cons_of_mem c hx))).1
      have hbound : ∀ d t, (' ' :: r) = d :: t → (d != ' ') = false := by
        intro d t hdt
        rw [List.cons.injEq] at hdt
        simp [← hdt.1]
      have htw := takeWhile_append_of (fun x => x != ' ') w' (' ' :: r) hall' hbound
      have hdw := dropWhile_append_of (fun x => x != ' ') w' (' ' :: r) hall' hbound
      have hsp1 : ∀ x ∈ [' '], (x == ' ') = true := by
        intro x hx
        rw [List.mem_singleton] at hx
        simp [hx]
      have hsp2 : ∀ d t, r = d :: t → (d == ' ') = false := by
        intro d t hdt
        have := (plainChar_props d (hr d t hdt)).1
        simp [this]
      have htw2 : (' ' :: r).takeWhile (fun x => x == ' ') = [' '] :=
        takeWhile_append_of (fun x => x == ' ') [' '] r hsp1 hsp2
      have hdw2 : (' ' :: r).dropWhile (fun x => x == ' ') = r :=
        dropWhile_append_of (fun x => x == ' ') [' '] r hsp1 hsp2
      have hq : ¬ ((c = '"' ∨ c = squote)
          ∧ (w' ++ ' ' :: r).takeWhile (fun x => x != c) ≠ []
          ∧ (w' ++ ' ' :: r).dropWhile (fun x => x != c) ≠ []) := by
        rintro ⟨h' | h', -, -⟩
        · exact hc2 h'
        · exact hc3 h'
      show parseScanF ((w' ++ ' ' :: r).length + 1) (c :: (w' ++ ' ' :: r))
          = ((c :: w') ++ [' ']) :: parseScan r
      simp only [parseScanF, if_neg hc1, if_neg hq, htw, hdw, htw2, hdw2]
      have hlen : r.length ≤ (w' ++ ' ' :: r).length := by simp; omega
      rw [parseScanF_fuel _ r.length r hlen (le_refl _)]
      rw [parseScan]
      simp [List.cons_append]

theorem pyStrip_plain (w : Chars) (h : ∀ c ∈ w, pyIsSpace c = false) :
    pyStrip w = w := by
  have h1 : w.dropWhile pyIsSpace = w := by
    apply dropWhile_eq_self_of
    intro c t hct
    exact h c (hct ▸ List.mem_cons_self c t)
  have h2 : w.reverse.dropWhile pyIsSpace = w.reverse := by
    apply dropWhile_eq_self_of
    intro c t hct
    apply h c
    rw [← List.mem_reverse, hct]
    exact List.mem_cons_self c t
  rw [pyStrip, h1, h2, List.reverse_reverse]

theorem pyStrip_plain_space (w : Chars) (hw : w ≠ [])
    (h : ∀ c ∈ w, pyIsSpace c = false) : pyStrip (w ++ [' ']) = w := by
  have h1 : (w ++ [' ']).dropWhile pyIsSpace = w ++ [' '] := by
    apply dropWhile_eq_self_of
    intro c t hct
    obtain ⟨c0, w0, hw0⟩ := List.exists_cons_of_ne_nil hw
    rw [hw0, List.cons_append, List.cons.injEq] at hct
    rw [← hct.1]
    exact h c0 (hw0 ▸ List.mem_cons_self c0 w0)
  have hrev : (w ++ [' ']).reverse = ' ' :: w.reverse := by simp
  have h2 : (' ' :: w.reverse).dropWhile pyIsSpace = w.reverse := by
    rw [List.dropWhile_cons_of_pos (by rfl)]
    apply dropWhile_eq_self_of
    intro c t hct
    apply h c
    rw [← List.mem_reverse, hct]
    exact List.mem_cons_self c t
  rw [pyStrip, h1, hrev, h2, List.reverse_reverse]

theorem processTok_plain (w : Chars) (hw : w ≠ [])
    (hall : ∀ c ∈ w, plainChar c = true) :
    processTok w = w ∧ processTok (w ++ [' ']) = w := by
  have hsp : ∀ c ∈ w, pyIsSpace c = false := fun c hc =>
    (plainChar_props c (hall c hc)).2.2.2
  have hs1 := pyStrip_plain w hsp
  have hs2 := pyStrip_plain_space w hw hsp
  obtain ⟨c0, w0, hw0⟩ := List.exists_cons_of_ne_nil hw
  have hc0 := plainChar_props c0 (hall c0 (hw0 ▸ List.mem_cons_self c0 w0))
  have hcond : ¬ ((w.head? = some '"' ∧ w.getLast? = some '"')
      ∨ (w.head? = some squote ∧ w.getLast? = some squote)) := by
    rw [hw0]
    rintro (⟨h1, -⟩ | ⟨h1, -⟩) <;> rw [List.head?_cons, Option.some.injEq] at h1
    · exact hc0.2.1 h1
    · exact hc0.2.2.1 h1
  constructor
  · simp only [processTok, hs1]
    rw [if_neg hcond]
  · simp only [processTok, hs2]
    rw [if_neg hcond]

/-- C9 counterexample: the tokenizer splits on the space character
only.  On the text `"cmd a\tb"` the tab is kept inside a single
returned token even though it is whitespace, refuting
"whitespace-delimited". -/
theorem parse_tab_cex :
    parse (chars "cmd a\tb") = [chars "cmd", chars "a\tb"]
    ∧ '\t' ∈ chars "a\tb" ∧ pyIsSpace '\t' = true :=
  ⟨by decide, by decide, by decide⟩

/-- C9, amended: tokenizing a matched Named-rule message splits the
remaining text into space-delimited tokens (only the ASCII space
separates tokens; other whitespace such as tab stays inside a token),
treating single- or double-quoted substrings as one token with the
quotes stripped, with unterminated quotes degrading to literal
characters; in particular `cmd "a b" c` yields `["a b", "c"]` after
the command token is consumed. -/
theorem parse_tokens_spec :
    ((parse (chars "cmd \"a b\" c")).drop 1 = [chars "a b", chars "c"])
    ∧ parse (chars "cmd " ++ squote :: (chars "a b" ++ squote :: chars " c"))
        = [chars "cmd", chars "a b", chars "c"]
    ∧ parse (chars "cmd \"a b") = [chars "cmd", '"' :: chars "a", chars "b"]
    ∧ (∀ t1 t2 : Chars, t1 ≠ [] → t2 ≠ [] →
        (∀ c ∈ t1, plainChar c = true) → (∀ c ∈ t2, plainChar c = true) →
        parse (t1 ++ ' ' :: t2) = [t1, t2]) := by
  refine ⟨by decide, by decide, by decide, ?_⟩
  intro t1 t2 h1 h2 hp1 hp2
  have hbound : ∀ d t, t2 = d :: t → plainChar d = true := by
    intro d t hdt
    exact hp2 d (hdt ▸ List.mem_cons_self d t)
  rw [parse, parseScan_plain_cons t1 t2 h1 hp1 hbound,
    parseScan_plain_last t2 h2 hp2]
  rw [List.map_cons, List.map_cons, List.map_nil]
  rw [(processTok_plain t1 h1 hp1).2, (processTok_plain t2 h2 hp2).1]

/-- C9 witness: two plain tokens separated by one space. -/
theorem parse_tokens_spec_witness :
    parse (chars "ab" ++ ' ' :: chars "cd") = [chars "ab", chars "cd"] :=
  parse_tokens_spec.2.2.2 (chars "ab") (chars "cd")
    (by decide) (by decide) (by decide) (by decide)

/- ### Dispatch (`api.py`, `Bot.start` main loop) -/

/-- A registered rule, as the dispatch loop consumes it: name,
predicate list (`events`), kind tag (`cmnd_type`: 0 event-matched,
1 named, 2 periodic — periodic rules never enter `callbacks`), and
the handler signature data that `check_args` introspects. -/
structure Command where
  name : Chars
  events : List (Message → Bool)
  cmnd_type : Nat
  annotations : List PyType
  defaults : List Value

/-- `not False in [event(message) for event in callback.events]`. -/
def eventsHold (cb : Command) (m : Message) : Bool :=
  cb.events.all (fun e => e m)

/-- The externally visible effects of one loop iteration on one
matching rule: a handler invocation with its coerced arguments, or
the fixed coercion-failure reply sent to the message's origin. -/
inductive Action where
  | invoke (name : Chars) (args : List Value)
  | errorReply (target : Chars)
deriving DecidableEq

/-- What the loop body does once a rule's predicates all hold:
type 0 calls the handler directly; type 1 runs
`check_args(callback.func, *parse(message.text)[1:])` and either
calls the handler with the converted arguments or sends the error
reply to `message.to`. -/
def matchedAction (cb : Command) (m : Message) : List Action :=
  if cb.cmnd_type = 0 then [.invoke cb.name []]
  else if cb.cmnd_type = 1 then
    match check_args cb.annotations cb.defaults ((parse m.text).drop 1) with
    | some args => [.invoke cb.name args]
    | none => [.errorReply m.dest]
  else []

/-- `Bot.start`'s per-message loop over `self.callbacks.values()`
(insertion order): every rule whose predicates all hold contributes
its action, in registration order. -/
def processMessage : List Command → Message → List Action
  | [], _ => []
  | cb :: rest, m =>
      (if eventsHold cb m then matchedAction cb m else []) ++ processMessage rest m

/-- A named rule `!ping` taking one required `int` argument. -/
def pingIntCommand : Command :=
  ⟨chars "ping", [fun m => commandMatches (chars "!") [chars "ping"] m.text],
    1, [PyType.int], []⟩

/-- A message whose text matches `!ping` but whose argument cannot be
converted to `int`. -/
def badArgMessage : Message :=
  ⟨chars "alice", chars "#room", chars "!ping abc"⟩

/-- C6 counterexample: every predicate of the rule holds on the
message, yet the handler is not invoked — argument coercion rejects
and the loop sends the error reply instead, refuting "a rule's
handler is invoked if and only if every predicate returns true". -/
theorem dispatch_coercion_cex :
    eventsHold pingIntCommand badArgMessage = true
    ∧ processMessage [pingIntCommand] badArgMessage
        = [Action.errorReply (chars "#room")] :=
  ⟨by decide, by decide⟩

/-- C6, amended: the dispatch loop evaluates every registered
non-periodic rule in registration order and acts on every rule whose
predicate set all returns true (dispatch is not first-match-wins);
an event rule's (type 0) handler is invoked iff every predicate
holds, while a Named rule's (type 1) handler is invoked iff every
predicate holds and argument coercion succeeds — on coercion failure
the fixed error reply goes to the message's destination instead. -/
theorem dispatch_rules :
    (∀ (cbs1 cbs2 : List Command) (m : Message),
        processMessage (cbs1 ++ cbs2) m
          = processMessage cbs1 m ++ processMessage cbs2 m)
    ∧ (∀ (cb : Command) (m : Message), eventsHold cb m = false →
        processMessage [cb] m = [])
    ∧ (∀ (cb : Command) (m : Message), cb.cmnd_type = 0 →
        (processMessage [cb] m = [Action.invoke cb.name []]
          ↔ eventsHold cb m = true))
    ∧ (∀ (cb : Command) (m : Message) (args : List Value), cb.cmnd_type = 1 →
        eventsHold cb m = true →
        check_args cb.annotations cb.defaults ((parse m.text).drop 1) = some args →
        processMessage [cb] m = [Action.invoke cb.name args])
    ∧ (∀ (cb : Command) (m : Message), cb.cmnd_type = 1 →
        eventsHold cb m = true →
        check_args cb.annotations cb.defaults ((parse m.text).drop 1) = none →
        processMessage [cb] m = [Action.errorReply m.dest]) := by
  refine ⟨?_, ?_, ?_, ?_, ?_⟩
  · intro cbs1 cbs2 m
    induction cbs1 with
    | nil => rfl
    | cons cb rest ih =>
        rw [List.cons_append]
        show (if eventsHold cb m then matchedAction cb m else [])
            ++ processMessage (rest ++ cbs2) m = _
        rw [ih, processMessage, List.append_assoc]
  · intro cb m h
    rw [processMessage, if_neg (by simp [h]), processMessage, List.append_nil]
  · intro cb m h0
    constructor
    · intro hp
      by_cases he : eventsHold cb m = true
      · exact he
      · rw [processMessage, if_neg he, processMessage] at hp
        cases hp
    · intro he
      rw [processMessage, if_pos he, processMessage, List.append_nil,
        matchedAction, if_pos h0]
  · intro cb m args h1 he hca
    rw [processMessage, if_pos he, processMessage, List.append_nil,
      matchedAction, if_neg (by rw [h1]; exact one_ne_zero), if_pos h1, hca]
  · intro cb m h1 he hca
    rw [processMessage, if_pos he, processMessage, List.append_nil,
      matchedAction, if_neg (by rw [h1]; exact one_ne_zero), if_pos h1, hca]

/-- A type-0 rule reacting to every message on `#room`. -/
def roomCommand : Command :=
  ⟨chars "spam", [fun m => m.dest == chars "#room"], 0, [], []⟩

/-- C6 witness: the amended dispatch facts at concrete rules and a
concrete message. -/
theorem dispatch_rules_witness :
    processMessage [roomCommand] badArgMessage
        = [Action.invoke (chars "spam") []]
    ∧ processMessage ([roomCommand] ++ [pingIntCommand]) badArgMessage
        = processMessage [roomCommand] badArgMessage
          ++ processMessage [pingIntCommand] badArgMessage :=
  ⟨(dispatch_rules.2.2.1 roomCommand badArgMessage rfl).mpr (by decide),
   dispatch_rules.1 [roomCommand] [pingIntCommand] badArgMessage⟩

end IrcApi
